import Mathlib

set_option autoImplicit false

/-! Verification of the slug-generation and transliteration-table subsystem:
`slugify` (src/text/slugify.ts), the serialized char-map loader
(src/text/slugify_char_map.ts) and the table compiler
(src/text/_slugify_char_map/build.ts). Strings are modelled as lists of
Unicode scalar values (`List Char`). Platform capabilities that the code
delegates to (word segmentation, Unicode normalization, lowercasing, Unicode
regex character properties) are modelled concretely on the character ranges
exercised here, as flagged in their doc comments. -/

abbrev Str := List Char

/-- Modelled from the spec: the whitespace set removed by the platform string
trim operation (stage 1 of the pipeline trims before normalizing). -/
def isSpaceChar (c : Char) : Bool :=
  c.toNat = 9 || c.toNat = 10 || c.toNat = 11 || c.toNat = 12 || c.toNat = 13 ||
  c.toNat = 32 || c.toNat = 0xA0 || c.toNat = 0x1680 ||
  (0x2000 ≤ c.toNat && c.toNat ≤ 0x200A) ||
  c.toNat = 0x2028 || c.toNat = 0x2029 || c.toNat = 0x202F || c.toNat = 0x205F ||
  c.toNat = 0x3000 || c.toNat = 0xFEFF

/-- `input.trim()`: remove leading and trailing whitespace. -/
def trimStr (s : Str) : Str :=
  ((s.dropWhile isSpaceChar).reverse.dropWhile isSpaceChar).reverse

/-- Modelled from the spec: Unicode canonical decomposition (`normalize("NFD")`,
an external platform capability). It is the identity on the character sets
exercised in this development (ASCII and unaccented Greek), whose characters
have no canonical decompositions. -/
def nfd (s : Str) : Str := s

/-- Modelled from the spec: Unicode canonical composition (`normalize("NFC")`,
an external platform capability). Identity on the character sets exercised
here, which contain no composable pairs. -/
def nfc (s : Str) : Str := s

/-- Modelled from the spec: platform `toLowerCase`, restricted to the ASCII and
Greek letter ranges exercised here. -/
def toLowerChar (c : Char) : Char :=
  if 65 ≤ c.toNat ∧ c.toNat ≤ 90 then Char.ofNat (c.toNat + 32)
  else if 0x391 ≤ c.toNat ∧ c.toNat ≤ 0x3A9 then Char.ofNat (c.toNat + 32)
  else c

def toLowerStr (s : Str) : Str := s.map toLowerChar

/-- Modelled from the spec: the regex character property `p{L}` (letters),
restricted to the ASCII and Greek ranges exercised in this development. -/
def unicodeLetter (c : Char) : Bool :=
  (65 ≤ c.toNat && c.toNat ≤ 90) || (97 ≤ c.toNat && c.toNat ≤ 122) ||
  (0x391 ≤ c.toNat && c.toNat ≤ 0x3A9 && c.toNat != 0x3A2) ||
  (0x3B1 ≤ c.toNat && c.toNat ≤ 0x3C9)

/-- Modelled from the spec: the regex character property `p{M}` (combining
marks), restricted to the combining diacritical marks block. -/
def unicodeMark (c : Char) : Bool := 0x300 ≤ c.toNat && c.toNat ≤ 0x36F

/-- Modelled from the spec: the regex character property `p{N}` (numbers),
restricted to ASCII digits. -/
def unicodeNumber (c : Char) : Bool := 48 ≤ c.toNat && c.toNat ≤ 57

/-- A character that belongs to a word-like span: letter, combining mark or
number. -/
def wordElem (c : Char) : Bool := unicodeLetter c || unicodeMark c || unicodeNumber c

/-- Fuel-indexed splitting of a string into maximal runs of characters that
agree on `wordElem`. Modelled from the spec: the external locale-aware
word-boundary segmentation capability, modelled as maximal word-like runs
alternating with separator runs. The fuel never runs out when it starts at the
string's length. -/
def segRunsAux : Nat → Str → List Str
  | _, [] => []
  | 0, s => [s]
  | fuel+1, c :: rest =>
      (c :: rest.takeWhile (fun d => wordElem d == wordElem c)) ::
        segRunsAux fuel (rest.dropWhile (fun d => wordElem d == wordElem c))

def segRuns (s : Str) : List Str := segRunsAux s.length s

def isWordRun (r : Str) : Bool :=
  match r with
  | [] => false
  | c :: _ => wordElem c

/-- The token sequence produced by the segmentation loop of slugify
(src/text/slugify.ts lines 153-165): word-like segments are pushed verbatim,
each non-empty separator segment contributes a single hyphen token. -/
def tokens (s : Str) : List Str :=
  (segRuns s).map (fun r => if isWordRun r then r else ['-'])

/-- A JS `Map<string, string>`: an insertion-ordered association list whose
keys are unique. -/
abbrev CharMap := List (Str × Str)

def keysOf (m : CharMap) : List Str := m.map Prod.fst

/-- `Map.prototype.set`: overwrite the value in place when the key is present,
otherwise append the new entry. -/
def mapSet (m : CharMap) (k v : Str) : CharMap :=
  if (List.lookup k m).isSome then
    m.map (fun p => if p.1 == k then (k, v) else p)
  else m ++ [(k, v)]

/-- Insertion step of the stable sort `(a, b) => b.length - a.length` used by
getTransliterationRe (src/text/slugify.ts line 36): a key goes after all keys
of greater or equal length. -/
def insertByLen (k : Str) : List Str → List Str
  | [] => [k]
  | x :: xs => if x.length < k.length then k :: x :: xs else x :: insertByLen k xs

def sortKeysDesc (l : List Str) : List Str := l.foldl (fun acc k => insertByLen k acc) []

/-- getTransliterationRe (src/text/slugify.ts lines 24-42). The compiled
pattern is modelled as the list of alternatives of the alternation regex: the
map's keys sorted by descending length. The empty list stands for the
match-nothing regex returned for an empty map (note: that one is not cached).
The cache argument models the WeakMap entry for the given map identity. -/
def getTransliterationRe (cache : Option (List Str)) (m : CharMap) :
    List Str × Option (List Str) :=
  match cache with
  | some pat => (pat, some pat)
  | none =>
      if m.isEmpty then ([], none)
      else (sortKeysDesc (keysOf m), some (sortKeysDesc (keysOf m)))

/-- The alternative matched by the alternation regex at the current position:
regex alternation is ordered choice, so it is the first alternative in pattern
order that matches here. -/
def firstKeyMatch (pat : List Str) (s : Str) : Option Str :=
  pat.find? (fun k => !k.isEmpty && k.isPrefixOf s)

/-- Fuel-indexed model of `word.replaceAll(re, (m) => config.charMap.get(m) ?? m)`
(convertWord, src/text/slugify.ts lines 52-56): scan left to right; at each
position substitute the first alternative of the pattern that matches,
looking the replacement up in the live map, non-overlapping, leaving unmatched
characters untouched. The fuel never runs out when it starts at the string's
length. -/
def applyMapAux (pat : List Str) (m : CharMap) : Nat → Str → Str
  | _, [] => []
  | 0, s => s
  | fuel+1, c :: rest =>
      match firstKeyMatch pat (c :: rest) with
      | some k => ((List.lookup k m).getD k) ++ applyMapAux pat m fuel (rest.drop (k.length - 1))
      | none => c :: applyMapAux pat m fuel rest

def applyMap (pat : List Str) (m : CharMap) (s : Str) : Str := applyMapAux pat m s.length s

/-- convertWord (src/text/slugify.ts lines 52-56). -/
def convertWord (translit : Bool) (pat : List Str) (m : CharMap) (w : Str) : Str :=
  if translit then applyMap pat m w else w

/-- The strip regex NON_WORD (src/text/slugify.ts line 69), as the predicate
holding on the characters it removes. -/
def NON_WORD (c : Char) : Bool :=
  !(unicodeLetter c || unicodeMark c || unicodeNumber c || c == '-')

/-- The strip regex NON_ASCII (src/text/slugify.ts line 105), as the predicate
holding on the characters it removes. -/
def NON_ASCII (c : Char) : Bool :=
  !((48 ≤ c.toNat && c.toNat ≤ 57) || (97 ≤ c.toNat && c.toNat ≤ 122) ||
    (65 ≤ c.toNat && c.toNat ≤ 90) || c == '-')

/-- `Array.prototype.join(sep)`. -/
def joinSep (sep : Str) : List Str → Str
  | [] => []
  | [x] => x
  | x :: y :: xs => x ++ sep ++ joinSep sep (y :: xs)

/-- The hyphen-run collapsing stage (`replaceAll` of the global regex matching
two or more consecutive hyphens, replacing the run by a single hyphen). -/
def collapse : Str → Str
  | [] => []
  | [c] => [c]
  | a :: b :: rest =>
      if a == '-' && b == '-' then collapse (b :: rest) else a :: collapse (b :: rest)

/-- `.replaceAll(/^-|-$/g, "")`: drop one leading and one trailing hyphen. -/
def trimEnds (s : Str) : Str :=
  let s1 := if s.head? = some '-' then s.tail else s
  if s1.getLast? = some '-' then s1.dropLast else s1

/-- SlugifyOptions (src/text/slugify.ts lines 9-20): optional transliteration
char map and optional strip pattern. A strip regex is modelled as the
predicate holding on the characters it removes (all strip regexes used by the
module are single-character classes). -/
structure SlugifyOptions where
  charMap : Option CharMap
  strip : Option (Char → Bool)

def defaultOptions : SlugifyOptions := ⟨none, none⟩

/-- Stages 1-8 of the slugify pipeline (src/text/slugify.ts lines 148-173):
trim + NFD + lowercase, segment, transliterate, join, strip, NFC, collapse
hyphen runs, trim edge hyphens. -/
def slugifyWithRe (translit : Bool) (pat : List Str) (m : CharMap)
    (stripPred : Char → Bool) (s : Str) : Str :=
  let u := toLowerStr (nfd (trimStr s))
  let toks := (tokens u).map (fun w => convertWord translit pat m w)
  let joined := joinSep (if translit then ['-'] else []) toks
  let stripped := joined.filter (fun c => !(stripPred c))
  trimEnds (collapse (nfc stripped))

/-- slugify with an explicit regex-cache state for the supplied map's identity,
returning the updated cache (models the cross-call WeakMap
transliterationReCache of src/text/slugify.ts lines 22-42). -/
def slugifyC (cache : Option (List Str)) (s : Str) (opts : SlugifyOptions) :
    Str × Option (List Str) :=
  match opts.charMap with
  | some m =>
      let rc := getTransliterationRe cache m
      let r := slugifyWithRe true rc.1 m (opts.strip.getD NON_ASCII) s
      (if r = [] then ['-'] else r, rc.2)
  | none =>
      let r := slugifyWithRe false [] [] (opts.strip.getD NON_WORD) s
      (if r = [] then ['-'] else r, cache)

/-- Stages 1-8 of slugify for a cold cache (first call with the given map). -/
def slugifyPipeline (s : Str) (opts : SlugifyOptions) : Str :=
  match opts.charMap with
  | some m =>
      slugifyWithRe true (getTransliterationRe none m).1 m (opts.strip.getD NON_ASCII) s
  | none => slugifyWithRe false [] [] (opts.strip.getD NON_WORD) s

/-- slugify (src/text/slugify.ts lines 134-175): the staged pipeline followed
by the `|| "-"` empty-result fallback. -/
def slugify (s : Str) (opts : SlugifyOptions) : Str :=
  let r := slugifyPipeline s opts
  if r = [] then ['-'] else r

/-- The output charset of the spec: `^[a-z0-9-]+$`, per character. -/
def isSlugOutChar (c : Char) : Bool :=
  (97 ≤ c.toNat && c.toNat ≤ 122) || (48 ≤ c.toNat && c.toNat ≤ 57) || c == '-'

/-- The three rule-file buckets of the table compiler
(src/text/_slugify_char_map/build.ts lines 28-36). -/
inductive MappingStep where
  | interIndic
  | scriptToLatin
  | latinToAscii
deriving DecidableEq, Repr

/-- mappingStepFileNameRegexes (src/text/_slugify_char_map/build.ts lines
28-36): the conceptual-order list `[InterIndic, script-to-Latin, Latin-ASCII]`
is reversed before the processing loop iterates over it. -/
def mappingStepOrder : List MappingStep :=
  [MappingStep.interIndic, MappingStep.scriptToLatin, MappingStep.latinToAscii].reverse

/-- Which filenames each bucket regex matches (src/text/_slugify_char_map/build.ts
lines 30-32), including the negative lookbehind excluding Grek files. -/
def stepMatches : MappingStep → Str → Bool
  | MappingStep.interIndic, name => "_InterIndic.txt".toList.isSuffixOf name
  | MappingStep.scriptToLatin, name =>
      (["_Latn.txt", "_Latin.txt", "_Latn_BGN.txt"].map String.toList).any
        (fun suf => suf.isSuffixOf name && !(('G' :: 'r' :: 'e' :: 'k' :: suf).isSuffixOf name))
  | MappingStep.latinToAscii, name => name == "Latin_ASCII.txt".toList

/-- normalize (src/text/_slugify_char_map/build.ts lines 17-19):
`str.trim().normalize("NFD").toLowerCase()`. -/
def normalizeStr (s : Str) : Str := toLowerStr (nfd (trimStr s))

/-- One record insertion with the chaining rule
(src/text/_slugify_char_map/build.ts lines 55-59): insert `lhs -> rhs`; if
`rhs` itself is a key of the resulting map, rewrite the entry for `lhs` to the
value that map holds for `rhs`. -/
def insertRecord (m : CharMap) (lhs rhs : Str) : CharMap :=
  let m1 := mapSet m lhs rhs
  match List.lookup rhs m1 with
  | some v => mapSet m1 lhs v
  | none => m1

/-- A parsed rule line: a (possibly bracket-expanded) list of left-hand sides
and one right-hand side, as produced by the external rule parser. -/
structure RuleLine where
  lhs : List Str
  rhs : Str

/-- The per-line insertion loop of the table compiler
(src/text/_slugify_char_map/build.ts lines 46-61): normalize both sides, skip
records whose normalized source is empty, insert with chaining. -/
def processLine (m : CharMap) (line : RuleLine) : CharMap :=
  line.lhs.foldl (fun acc l0 =>
    let l := normalizeStr l0
    let r := normalizeStr line.rhs
    if l = [] then acc else insertRecord acc l r) m

/-- The bucket-processing loop (src/text/_slugify_char_map/build.ts lines
38-63): for each step in `mappingStepOrder`, process that bucket's files'
lines in order. -/
def buildMap (files : MappingStep → List (List RuleLine)) : CharMap :=
  mappingStepOrder.foldl
    (fun m step => (files step).foldl (fun m' f => f.foldl processLine m') m) []

/-- `"..."​.split(",")`. -/
def splitComma : Str → List Str
  | [] => [[]]
  | c :: rest =>
      match splitComma rest with
      | [] => [[]]
      | h :: t => if c = ',' then [] :: h :: t else (c :: h) :: t

/-- The charMap loader (src/text/slugify_char_map.ts lines 8-13): expand each
serialized entry `root -> comma-joined sources` into one `source -> root` map
entry per listed source, in order. -/
def expandTable (t : List (Str × Str)) : CharMap :=
  t.foldl (fun acc p => (splitComma p.2).foldl (fun a y => mapSet a y p.1) acc) []

def addToGroup : List (Str × List Str) → Str → Str → List (Str × List Str)
  | [], v, k => [(v, [k])]
  | g :: rest, v, k =>
      if g.1 = v then (g.1, g.2 ++ [k]) :: rest else g :: addToGroup rest v k

/-- Group map entries by value in first-appearance order (the `_out` object of
src/text/_slugify_char_map/build.ts lines 84-89). -/
def groupByValue (m : CharMap) : List (Str × List Str) :=
  m.foldl (fun acc p => addToGroup acc p.2 p.1) []

/-- Modelled from the spec: the sortAlphabetical comparator
(`localeCompare` under "en-US"), modelled as strict code-point lexicographic
order. -/
def strLt : Str → Str → Bool
  | _, [] => false
  | [], _ :: _ => true
  | a :: as, b :: bs => decide (a.toNat < b.toNat) || (a == b && strLt as bs)

def strLe (a b : Str) : Bool := strLt a b || a == b

def insertSorted {α : Type} (le : α → α → Bool) (x : α) : List α → List α
  | [] => [x]
  | y :: ys => if le x y then x :: y :: ys else y :: insertSorted le x ys

/-- `Array.prototype.sort` with a total comparator (stable insertion sort). -/
def insSortBy {α : Type} (le : α → α → Bool) (l : List α) : List α :=
  l.foldr (insertSorted le) []

/-- `new Set(...)` iteration order: first-occurrence deduplication. -/
def dedupFirstAux (seen : List Str) : List Str → List Str
  | [] => []
  | x :: xs => if x ∈ seen then dedupFirstAux seen xs else x :: dedupFirstAux (x :: seen) xs

def dedupFirst (l : List Str) : List Str := dedupFirstAux [] l

/-- Re-derivation of the serialized table from a runtime map
(src/text/_slugify_char_map/build.ts lines 84-98): group sources by shared
target, sort groups by target, sort then deduplicate each group's members,
join members with commas. -/
def deriveTable (m : CharMap) : List (Str × Str) :=
  (insSortBy (fun a b => strLe a.1 b.1) (groupByValue m)).map
    (fun g => (g.1, joinSep [','] (dedupFirst (insSortBy strLe g.2))))

/-- No two consecutive hyphens. -/
def noDoubleHyphen : Str → Bool
  | [] => true
  | [_] => true
  | a :: b :: r => !(a == '-' && b == '-') && noDoubleHyphen (b :: r)

/-- The string enumerating all 128 ASCII code points in order. -/
def allAscii : Str := (List.range 128).map Char.ofNat

/-- A schematic three-bucket rule corpus: one native-script record whose
target chains through an intermediate-script record and a Latin record down
to ASCII. -/
def chainDemoFiles : MappingStep → List (List RuleLine)
  | MappingStep.interIndic => [[⟨[['δ']], ['μ']⟩]]
  | MappingStep.scriptToLatin => [[⟨[['μ']], ['p']⟩]]
  | MappingStep.latinToAscii => [[⟨[['p']], ['q']⟩]]

theorem noDouble_cons_cons (a b : Char) (r : Str) :
    noDoubleHyphen (a :: b :: r) = true ↔
      ¬(a = '-' ∧ b = '-') ∧ noDoubleHyphen (b :: r) = true := by
  simp [noDoubleHyphen]
  tauto

theorem noDouble_cons (a : Char) (l : Str) (h : noDoubleHyphen (a :: l) = true) :
    noDoubleHyphen l = true := by
  cases l with
  | nil => rfl
  | cons b r => exact ((noDouble_cons_cons _ _ _).mp h).2

theorem noDouble_dropLast : ∀ (l : Str), noDoubleHyphen l = true →
    noDoubleHyphen l.dropLast = true := by
  intro l h
  match l with
  | [] => rfl
  | [a] => rfl
  | [a, b] => rfl
  | a :: b :: c :: r =>
      have ih := noDouble_dropLast (b :: c :: r) (noDouble_cons _ _ h)
      have hab := ((noDouble_cons_cons _ _ _).mp h).1
      simp only [List.dropLast_cons₂] at ih ⊢
      rw [noDouble_cons_cons]
      exact ⟨hab, ih⟩

theorem noDouble_append_last (a : Char) :
    ∀ (init : Str), noDoubleHyphen (init ++ [a]) = true → a = '-' →
      init.getLast? ≠ some '-' := by
  intro init
  match init with
  | [] => intro _ _; simp
  | [x] =>
      intro h ha
      subst ha
      have hx := ((noDouble_cons_cons _ _ _).mp h).1
      simp only [List.getLast?_singleton, ne_eq, Option.some.injEq]
      intro hxe
      exact hx ⟨hxe, rfl⟩
  | x :: y :: r =>
      intro h ha
      have ih := noDouble_append_last a (y :: r) (noDouble_cons _ _ h) ha
      simpa [List.getLast?_cons_cons] using ih

theorem collapse_head? : ∀ (b : Char) (rest : Str), (collapse (b :: rest)).head? = some b := by
  intro b rest
  induction rest generalizing b with
  | nil => rfl
  | cons c r ih =>
      cases hab : (b == '-' && c == '-') with
      | true =>
          have hb : b = '-' := eq_of_beq ((Bool.and_eq_true _ _).mp hab).1
          have hc : c = '-' := eq_of_beq ((Bool.and_eq_true _ _).mp hab).2
          subst hb; subst hc
          simpa [collapse, hab] using ih '-'
      | false => simp [collapse, hab]

theorem collapse_noDouble : ∀ (s : Str), noDoubleHyphen (collapse s) = true := by
  intro s
  match s with
  | [] => rfl
  | [c] => rfl
  | a :: b :: rest =>
      have ih := collapse_noDouble (b :: rest)
      cases hab : (a == '-' && b == '-') with
      | true => simpa [collapse, hab] using ih
      | false =>
          have hh := collapse_head? b rest
          rcases hx : collapse (b :: rest) with _ | ⟨b', t⟩
          · simp [collapse, hab, hx, noDoubleHyphen]
          · rw [hx] at hh ih
            simp only [List.head?_cons] at hh
            injection hh with hb
            subst hb
            rw [collapse, if_neg (by simp [hab]), hx]
            rw [noDouble_cons_cons]
            refine ⟨?_, ih⟩
            intro ⟨h1, h2⟩
            rw [h1, h2] at hab
            simp at hab

theorem tail_head_ne (s : Str) (h : noDoubleHyphen s = true) (hs : s.head? = some '-') :
    s.tail.head? ≠ some '-' := by
  cases s with
  | nil => simp at hs
  | cons a l =>
      simp only [List.head?_cons, Option.some.injEq] at hs
      subst hs
      cases l with
      | nil => simp
      | cons b r =>
          have := ((noDouble_cons_cons _ _ _).mp h).1
          simp only [List.tail_cons, List.head?_cons, ne_eq, Option.some.injEq]
          intro hb
          exact this ⟨rfl, hb⟩

theorem step1_noDouble (s : Str) (h : noDoubleHyphen s = true) :
    noDoubleHyphen (if s.head? = some '-' then s.tail else s) = true := by
  split
  · cases s with
    | nil => rfl
    | cons a l => exact noDouble_cons a l h
  · exact h

theorem step1_head (s : Str) (h : noDoubleHyphen s = true) :
    (if s.head? = some '-' then s.tail else s).head? ≠ some '-' := by
  split
  · exact tail_head_ne s h (by assumption)
  · assumption

theorem step2_noDouble (s1 : Str) (h1 : noDoubleHyphen s1 = true) :
    noDoubleHyphen (if s1.getLast? = some '-' then s1.dropLast else s1) = true := by
  split
  · exact noDouble_dropLast _ h1
  · exact h1

theorem step2_edges (s1 : Str) (h1 : noDoubleHyphen s1 = true) (hhead : s1.head? ≠ some '-') :
    (if s1.getLast? = some '-' then s1.dropLast else s1) = [] ∨
      ((if s1.getLast? = some '-' then s1.dropLast else s1).head? ≠ some '-' ∧
       (if s1.getLast? = some '-' then s1.dropLast else s1).getLast? ≠ some '-') := by
  split
  · rename_i hlast
    have hne : s1 ≠ [] := by
      intro he; rw [he] at hlast; simp at hlast
    have hlastval : s1.getLast hne = '-' := by
      have := List.getLast?_eq_getLast s1 hne
      rw [this] at hlast
      exact Option.some.inj hlast
    have hdecomp : s1.dropLast ++ ['-'] = s1 := by
      have := List.dropLast_append_getLast hne
      rw [hlastval] at this
      exact this
    rcases hd : s1.dropLast with _ | ⟨x, t⟩
    · exact Or.inl rfl
    · right
      constructor
      · have hh : s1.head? = some x := by
          conv_lhs => rw [← hdecomp]
          rw [hd]
          simp
        rw [hd] at *
        simp only [List.head?_cons, ne_eq, Option.some.injEq]
        intro hx
        rw [hx] at hh
        exact hhead hh
      · rw [← hd]
        apply noDouble_append_last '-' s1.dropLast
        · rw [hdecomp]; exact h1
        · rfl
  · rename_i hlast
    rcases hs : s1 with _ | ⟨x, t⟩
    · exact Or.inl rfl
    · right
      rw [← hs]
      exact ⟨hhead, hlast⟩

theorem trimEnds_noDouble (s : Str) (h : noDoubleHyphen s = true) :
    noDoubleHyphen (trimEnds s) = true := by
  simp only [trimEnds]
  exact step2_noDouble _ (step1_noDouble s h)

theorem trimEnds_edges (s : Str) (h : noDoubleHyphen s = true) :
    trimEnds s = [] ∨ ((trimEnds s).head? ≠ some '-' ∧ (trimEnds s).getLast? ≠ some '-') := by
  simp only [trimEnds]
  exact step2_edges _ (step1_noDouble s h) (step1_head s h)

theorem slugifyPipeline_shape (s : Str) (opts : SlugifyOptions) :
    ∃ X, slugifyPipeline s opts = trimEnds (collapse X) := by
  unfold slugifyPipeline
  cases opts.charMap with
  | some m => exact ⟨_, rfl⟩
  | none => exact ⟨_, rfl⟩



theorem lookup_cons (a k b : Str) (es : CharMap) :
    List.lookup a ((k, b) :: es) = if a == k then some b else List.lookup a es := by
  cases h : a == k <;> simp [List.lookup, h]

theorem lookup_mapSet_self (m : CharMap) (k v : Str) :
    List.lookup k (mapSet m k v) = some v := by
  unfold mapSet
  split
  · rename_i hsome
    induction m with
    | nil => simp at hsome
    | cons p rest ih =>
        obtain ⟨k0, v0⟩ := p
        cases hpk : (k0 == k) with
        | true =>
            simp only [List.map_cons, hpk, if_true]
            rw [lookup_cons]
            simp
        | false =>
            have hk : (k == k0) = false := by
              rw [beq_eq_false_iff_ne] at hpk ⊢
              exact fun he => hpk he.symm
            rw [lookup_cons, hk] at hsome
            simp only [Bool.false_eq_true, if_false] at hsome
            simp only [List.map_cons, hpk, Bool.false_eq_true, if_false]
            rw [lookup_cons, hk]
            simp only [Bool.false_eq_true, if_false]
            exact ih hsome
  · rename_i hnone
    have h0 : List.lookup k m = none := by
      cases h : List.lookup k m with
      | none => rfl
      | some w => rw [h] at hnone; simp at hnone
    rw [List.lookup_append, h0]
    simp [List.lookup]

theorem slugify_noDouble (s : Str) (opts : SlugifyOptions) :
    noDoubleHyphen (slugify s opts) = true := by
  obtain ⟨X, hX⟩ := slugifyPipeline_shape s opts
  simp only [slugify, hX]
  split
  · rfl
  · exact trimEnds_noDouble _ (collapse_noDouble X)

theorem slugify_edges (s : Str) (opts : SlugifyOptions) :
    slugify s opts = ['-'] ∨
      ((slugify s opts).head? ≠ some '-' ∧ (slugify s opts).getLast? ≠ some '-') := by
  obtain ⟨X, hX⟩ := slugifyPipeline_shape s opts
  simp only [slugify, hX]
  split
  · exact Or.inl rfl
  · rcases trimEnds_edges _ (collapse_noDouble X) with he | he
    · rename_i hne
      exact absurd he hne
    · exact Or.inr he

/-- C9: for every input and options, the slug returned by slugify never
contains two consecutive hyphens, and it neither starts nor ends with a
hyphen unless it is exactly the single-character fallback "-". -/
theorem slugify_hyphen_invariant (s : Str) (opts : SlugifyOptions) :
    noDoubleHyphen (slugify s opts) = true ∧
    (slugify s opts = ['-'] ∨
      ((slugify s opts).head? ≠ some '-' ∧ (slugify s opts).getLast? ≠ some '-')) :=
  ⟨slugify_noDouble s opts, slugify_edges s opts⟩

/-- C2: slugify is total: it returns a non-empty string for every input and
options, and whenever the staged pipeline deletes everything it degrades to
the fallback hyphen. -/
theorem slugify_total (s : Str) (opts : SlugifyOptions) :
    slugify s opts ≠ [] ∧ (slugifyPipeline s opts = [] → slugify s opts = ['-']) := by
  constructor
  · simp only [slugify]
    split
    · simp
    · assumption
  · intro h
    simp [slugify, h]

/-- C2 witness: a string in a script absent from the (empty) char map is
wholly deleted and slugify degrades to the fallback hyphen. -/
theorem slugify_total_witness :
    slugify ['α', 'β'] ⟨some [], none⟩ ≠ [] ∧ slugify ['α', 'β'] ⟨some [], none⟩ = ['-'] := by
  have h := slugify_total ['α', 'β'] ⟨some [], none⟩
  exact ⟨h.1, h.2 (by decide)⟩

/-- C8: slugify of the empty string is "-", and in general whenever the
staged pipeline (normalize, segment, transliterate, join, strip, normalize,
collapse, trim) yields the empty string, slugify returns the single hyphen. -/
theorem slugify_empty_fallback :
    (∀ opts : SlugifyOptions, slugify [] opts = ['-']) ∧
    (∀ (s : Str) (opts : SlugifyOptions), slugifyPipeline s opts = [] →
      slugify s opts = ['-']) := by
  constructor
  · intro opts
    have hpipe : slugifyPipeline [] opts = [] := by
      unfold slugifyPipeline
      cases opts.charMap <;> rfl
    simp [slugify, hpipe]
  · intro s opts h
    simp [slugify, h]

/-- C8 witness: instantiated at the empty string with default options, and at
an all-punctuation string whose pipeline output is empty. -/
theorem slugify_empty_fallback_witness :
    slugify [] defaultOptions = ['-'] ∧ slugify ['!', '?'] defaultOptions = ['-'] :=
  ⟨slugify_empty_fallback.1 defaultOptions,
   slugify_empty_fallback.2 ['!', '?'] defaultOptions (by decide)⟩

/-- C6 counterexample: the bucket-processing loop does not iterate the buckets
in the conceptual order (a) intermediate-script, (b) script-to-Latin,
(c) Latin-to-ASCII. -/
theorem mappingStepOrder_not_conceptual :
    mappingStepOrder ≠
      [MappingStep.interIndic, MappingStep.scriptToLatin, MappingStep.latinToAscii] := by
  decide

/-- C6 (amended): the table compiler iterates the three buckets in the
reverse of the conceptual conversion order: Latin-to-ASCII rules first, then
script-to-Latin rules, then intermediate-script rules; combined with the
chaining rule this resolves a native-script record through the intermediate
script and Latin romanization down to ASCII. -/
theorem mappingStepOrder_processing :
    mappingStepOrder =
      [MappingStep.latinToAscii, MappingStep.scriptToLatin, MappingStep.interIndic] ∧
    List.lookup ['δ'] (buildMap chainDemoFiles) = some ['q'] := by
  exact ⟨rfl, by decide⟩

/-- C7: immediately after inserting a record mapping `from` to `to`, if `to`
itself is a key of the map, the entry for `from` is rewritten to the value the
map holds for `to`. -/
theorem insertRecord_chains (m : CharMap) (f t v : Str)
    (h : List.lookup t (mapSet m f t) = some v) :
    List.lookup f (insertRecord m f t) = some v := by
  simp only [insertRecord]
  rw [h]
  exact lookup_mapSet_self (mapSet m f t) f v

/-- C7 witness: inserting a -> b into a map already holding b -> c rewrites
the new entry to a -> c. -/
theorem insertRecord_chains_witness :
    List.lookup ['a'] (insertRecord [(['b'], ['c'])] ['a'] ['b']) = some ['c'] :=
  insertRecord_chains [(['b'], ['c'])] ['a'] ['b'] ['c'] (by decide)

theorem mem_insertByLen (x k : Str) (l : List Str) :
    x ∈ insertByLen k l ↔ x = k ∨ x ∈ l := by
  induction l with
  | nil => simp [insertByLen]
  | cons y ys ih =>
      simp only [insertByLen]
      split
      · simp
      · simp only [List.mem_cons, ih]
        tauto

theorem mem_sortKeysDesc (x : Str) (l : List Str) : x ∈ sortKeysDesc l ↔ x ∈ l := by
  unfold sortKeysDesc
  suffices h : ∀ acc : List Str,
      x ∈ l.foldl (fun acc k => insertByLen k acc) acc ↔ x ∈ acc ∨ x ∈ l by
    simpa using h []
  induction l with
  | nil => intro acc; simp
  | cons y ys ih =>
      intro acc
      simp only [List.foldl_cons, ih, mem_insertByLen, List.mem_cons]
      tauto

theorem insertByLen_sorted (k : Str) (l : List Str)
    (h : List.Pairwise (fun a b : Str => b.length ≤ a.length) l) :
    List.Pairwise (fun a b : Str => b.length ≤ a.length) (insertByLen k l) := by
  induction l with
  | nil => simp [insertByLen]
  | cons x xs ih =>
      rw [List.pairwise_cons] at h
      obtain ⟨hx, hxs⟩ := h
      by_cases hlt : x.length < k.length
      · simp only [insertByLen, if_pos hlt]
        rw [List.pairwise_cons]
        constructor
        · intro y hy
          rcases List.mem_cons.mp hy with rfl | hy
          · omega
          · have := hx y hy
            omega
        · rw [List.pairwise_cons]
          exact ⟨hx, hxs⟩
      · simp only [insertByLen, if_neg hlt]
        rw [List.pairwise_cons]
        constructor
        · intro y hy
          rcases (mem_insertByLen y k xs).mp hy with rfl | hy
          · omega
          · exact hx y hy
        · exact ih hxs

theorem sortKeysDesc_sorted (l : List Str) :
    List.Pairwise (fun a b : Str => b.length ≤ a.length) (sortKeysDesc l) := by
  unfold sortKeysDesc
  suffices h : ∀ acc : List Str,
      List.Pairwise (fun a b : Str => b.length ≤ a.length) acc →
      List.Pairwise (fun a b : Str => b.length ≤ a.length)
        (l.foldl (fun acc k => insertByLen k acc) acc) by
    exact h [] (by simp)
  induction l with
  | nil => intro acc h; exact h
  | cons x xs ih =>
      intro acc h
      exact ih _ (insertByLen_sorted x acc h)

theorem applyMapAux_congr (pat : List Str) (m : CharMap) :
    ∀ (f1 f2 : Nat) (s : Str), s.length ≤ f1 → s.length ≤ f2 →
      applyMapAux pat m f1 s = applyMapAux pat m f2 s := by
  intro f1
  induction f1 with
  | zero =>
      intro f2 s h1 _
      have hs : s = [] := List.eq_nil_of_length_eq_zero (Nat.le_zero.mp h1)
      subst hs
      cases f2 <;> rfl
  | succ n ih =>
      intro f2 s h1 h2
      cases s with
      | nil => cases f2 <;> rfl
      | cons c rest =>
          cases f2 with
          | zero => simp at h2
          | succ n2 =>
              have hr1 : rest.length ≤ n := by
                simpa using h1
              have hr2 : rest.length ≤ n2 := by
                simpa using h2
              simp only [applyMapAux]
              cases hfm : firstKeyMatch pat (c :: rest) with
              | some k =>
                  have hd : (rest.drop (k.length - 1)).length ≤ rest.length := by
                    rw [List.length_drop]
                    omega
                  dsimp only
                  rw [ih n2 _ (le_trans hd hr1) (le_trans hd hr2)]
              | none =>
                  dsimp only
                  rw [ih n2 rest hr1 hr2]

theorem applyMap_cons (pat : List Str) (m : CharMap) (c : Char) (rest : Str) :
    applyMap pat m (c :: rest) =
      match firstKeyMatch pat (c :: rest) with
      | some k => ((List.lookup k m).getD k) ++ applyMap pat m (rest.drop (k.length - 1))
      | none => c :: applyMap pat m rest := by
  unfold applyMap
  simp only [List.length_cons, applyMapAux]
  cases hfm : firstKeyMatch pat (c :: rest) with
  | some k =>
      have hd : (rest.drop (k.length - 1)).length ≤ rest.length := by
        rw [List.length_drop]
        omega
      dsimp only
      rw [applyMapAux_congr pat m rest.length (rest.drop (k.length - 1)).length _ hd (le_refl _)]
  | none => rfl

/-- C4: transliteration is longest-match-first: when a map key matches at the
current position, the substitution performed by convertWord replaces a
matching key of maximal length (in particular, a longer key beats any key
that is a proper prefix of it) with its mapped root, looked up in the live
map, and continues after the consumed match. -/
theorem convertWord_longest_match (m : CharMap) (s k : Str)
    (hk : k ∈ keysOf m) (hne : k ≠ []) (hpre : k.isPrefixOf s = true) :
    ∃ k', firstKeyMatch (sortKeysDesc (keysOf m)) s = some k' ∧
      k' ∈ keysOf m ∧ k'.isPrefixOf s = true ∧ k.length ≤ k'.length ∧
      applyMap (sortKeysDesc (keysOf m)) m s =
        ((List.lookup k' m).getD k') ++
          applyMap (sortKeysDesc (keysOf m)) m (s.drop k'.length) := by
  set pat := sortKeysDesc (keysOf m) with hpat
  have hkpat : k ∈ pat := (mem_sortKeysDesc k _).mpr hk
  have hpk : (!k.isEmpty && k.isPrefixOf s) = true := by
    cases k with
    | nil => exact absurd rfl hne
    | cons a b => simp [hpre]
  have hsome : (pat.find? (fun x => !x.isEmpty && x.isPrefixOf s)).isSome = true :=
    List.find?_isSome.mpr ⟨k, hkpat, hpk⟩
  obtain ⟨k', hfind⟩ := Option.isSome_iff_exists.mp hsome
  obtain ⟨hpk', as, bs, hsplit, hprev⟩ := List.find?_eq_some.mp hfind
  have hk'mem : k' ∈ pat := List.mem_of_find?_eq_some hfind
  have hk'keys : k' ∈ keysOf m := (mem_sortKeysDesc k' _).mp hk'mem
  have hk'pre : k'.isPrefixOf s = true := ((Bool.and_eq_true _ _).mp hpk').2
  have hk'ne : k'.isEmpty = false := by
    have h1 := ((Bool.and_eq_true _ _).mp hpk').1
    simpa using h1
  have hlen : k.length ≤ k'.length := by
    have hsorted := sortKeysDesc_sorted (keysOf m)
    rw [← hpat, hsplit] at hsorted
    have hknotas : k ∉ as := by
      intro hmem
      have h1 := hprev k hmem
      rw [hpk] at h1
      simp at h1
    have hkin : k ∈ as ++ k' :: bs := by
      rw [← hsplit]
      exact hkpat
    rcases List.mem_append.mp hkin with h1 | h1
    · exact absurd h1 hknotas
    · rcases List.mem_cons.mp h1 with rfl | h1
      · exact le_refl _
      · have h2 := (List.pairwise_append.mp hsorted).2.1
        rw [List.pairwise_cons] at h2
        exact h2.1 k h1
  cases s with
  | nil =>
      cases k with
      | nil => exact absurd rfl hne
      | cons a b => simp [List.isPrefixOf] at hpre
  | cons c rest =>
      refine ⟨k', hfind, hk'keys, hk'pre, hlen, ?_⟩
      rw [applyMap_cons]
      have hfm : firstKeyMatch pat (c :: rest) = some k' := hfind
      rw [hfm]
      dsimp only
      have hdrop : (c :: rest).drop k'.length = rest.drop (k'.length - 1) := by
        have hlen1 : 1 ≤ k'.length := by
          cases k' with
          | nil => simp at hk'ne
          | cons x y => simp
        obtain ⟨n, hn⟩ : ∃ n, k'.length = n + 1 := ⟨k'.length - 1, by omega⟩
        rw [hn]
        simp
      rw [hdrop]

/-- C4 witness: with the map a -> x, ab -> q, the word "ab" is converted by
the two-character key, not by the single-character key that is its proper
prefix. -/
theorem convertWord_longest_match_witness :
    ∃ k', firstKeyMatch (sortKeysDesc (keysOf [(['a'], ['x']), (['a', 'b'], ['q'])]))
        ['a', 'b'] = some k' ∧
      k' ∈ keysOf [(['a'], ['x']), (['a', 'b'], ['q'])] ∧
      k'.isPrefixOf ['a', 'b'] = true ∧
      (['a'] : Str).length ≤ k'.length ∧
      applyMap (sortKeysDesc (keysOf [(['a'], ['x']), (['a', 'b'], ['q'])]))
          [(['a'], ['x']), (['a', 'b'], ['q'])] ['a', 'b'] =
        ((List.lookup k' [(['a'], ['x']), (['a', 'b'], ['q'])]).getD k') ++
          applyMap (sortKeysDesc (keysOf [(['a'], ['x']), (['a', 'b'], ['q'])]))
            [(['a'], ['x']), (['a', 'b'], ['q'])] (List.drop k'.length ['a', 'b']) :=
  convertWord_longest_match [(['a'], ['x']), (['a', 'b'], ['q'])] ['a', 'b'] ['a']
    (by decide) (by decide) (by decide)

/-- C10: the compiled alternation pattern for a non-empty charMap instance is
built from the map's key set at the first call and cached by map identity:
a later call that passes the same cache with a key added to the map still uses
the stale pattern (which does not contain the new key), while replacement
values are looked up in the live, updated map. -/
theorem slugify_cacheStale (m : CharMap) (hm : m ≠ []) (k v : Str) (hk : k ∉ keysOf m)
    (s1 s2 : Str) (o1 o2 : Option (Char → Bool)) :
    (slugifyC none s1 ⟨some m, o1⟩).2 = some (sortKeysDesc (keysOf m)) ∧
    k ∉ sortKeysDesc (keysOf m) ∧
    slugifyC (slugifyC none s1 ⟨some m, o1⟩).2 s2 ⟨some (mapSet m k v), o2⟩ =
      ((fun r => if r = [] then ['-'] else r)
        (slugifyWithRe true (sortKeysDesc (keysOf m)) (mapSet m k v) (o2.getD NON_ASCII) s2),
       some (sortKeysDesc (keysOf m))) := by
  have hempty : m.isEmpty = false := by
    cases m with
    | nil => exact absurd rfl hm
    | cons p r => rfl
  have h2 : (slugifyC none s1 ⟨some m, o1⟩).2 = some (sortKeysDesc (keysOf m)) := by
    simp [slugifyC, getTransliterationRe, hempty]
  refine ⟨h2, ?_, ?_⟩
  · intro hmem
    exact hk ((mem_sortKeysDesc k _).mp hmem)
  · rw [h2]
    rfl

/-- C10 witness: a map holding only a -> x is used once; the key b added
afterwards is absent from the cached pattern, and the second call runs with
the stale pattern over the updated map. -/
theorem slugify_cacheStale_witness :
    (slugifyC none ['a'] ⟨some [(['a'], ['x'])], none⟩).2 =
      some (sortKeysDesc (keysOf [(['a'], ['x'])])) ∧
    ['b'] ∉ sortKeysDesc (keysOf [(['a'], ['x'])]) ∧
    slugifyC (slugifyC none ['a'] ⟨some [(['a'], ['x'])], none⟩).2 ['b']
        ⟨some (mapSet [(['a'], ['x'])] ['b'] ['y']), none⟩ =
      ((fun r => if r = [] then ['-'] else r)
        (slugifyWithRe true (sortKeysDesc (keysOf [(['a'], ['x'])]))
          (mapSet [(['a'], ['x'])] ['b'] ['y'])
          ((none : Option (Char → Bool)).getD NON_ASCII) ['b']),
       some (sortKeysDesc (keysOf [(['a'], ['x'])]))) :=
  slugify_cacheStale [(['a'], ['x'])] (by decide) ['b'] ['y'] (by decide) ['a'] ['b'] none none

theorem toNat_ofNat_valid (n : Nat) (h : n < 0xD800) : (Char.ofNat n).toNat = n := by
  have hv : n.isValidChar := Or.inl h
  simp only [Char.ofNat, hv, dif_pos, Char.ofNatAux, Char.toNat, UInt32.toNat,
    BitVec.toNat_ofNatLt]

theorem mem_trimStr (s : Str) (c : Char) (h : c ∈ trimStr s) : c ∈ s := by
  unfold trimStr at h
  rw [List.mem_reverse] at h
  have h1 := List.Sublist.mem h (List.dropWhile_sublist _)
  rw [List.mem_reverse] at h1
  exact List.Sublist.mem h1 (List.dropWhile_sublist _)

theorem mem_collapse (c : Char) : ∀ (w : Str), c ∈ collapse w → c ∈ w := by
  intro w
  match w with
  | [] => intro h; exact h
  | [a] => intro h; exact h
  | a :: b :: rest =>
      intro h
      rw [collapse] at h
      split at h
      · exact List.mem_cons_of_mem a (mem_collapse c (b :: rest) h)
      · rcases List.mem_cons.mp h with rfl | h2
        · exact List.mem_cons_self _ _
        · exact List.mem_cons_of_mem a (mem_collapse c (b :: rest) h2)

theorem mem_trimEnds (c : Char) (w : Str) (h : c ∈ trimEnds w) : c ∈ w := by
  simp only [trimEnds] at h
  have step : ∀ u : Str, c ∈ (if u.getLast? = some '-' then u.dropLast else u) → c ∈ u := by
    intro u hu
    split at hu
    · exact List.Sublist.mem hu (List.dropLast_sublist u)
    · exact hu
  have h1 := step _ h
  split at h1
  · exact List.Sublist.mem h1 (List.tail_sublist w)
  · exact h1

theorem mem_joinSep (sep : Str) (c : Char) :
    ∀ (l : List Str), c ∈ joinSep sep l → c ∈ sep ∨ ∃ t ∈ l, c ∈ t := by
  intro l
  match l with
  | [] => intro h; simp [joinSep] at h
  | [x] =>
      intro h
      right
      exact ⟨x, by simp, by simpa [joinSep] using h⟩
  | x :: y :: ys =>
      intro h
      simp only [joinSep] at h
      rcases List.mem_append.mp h with h1 | h2
      · rcases List.mem_append.mp h1 with hx | hs
        · right
          exact ⟨x, by simp, hx⟩
        · exact Or.inl hs
      · rcases mem_joinSep sep c (y :: ys) h2 with hs | ⟨t, ht, hct⟩
        · exact Or.inl hs
        · right
          exact ⟨t, List.mem_cons_of_mem x ht, hct⟩

theorem segRunsAux_mem : ∀ (fuel : Nat) (s r : Str), s.length ≤ fuel →
    r ∈ segRunsAux fuel s → ∀ c ∈ r, c ∈ s := by
  intro fuel
  induction fuel with
  | zero =>
      intro s r h1 hr
      have hs : s = [] := List.eq_nil_of_length_eq_zero (Nat.le_zero.mp h1)
      subst hs
      simp [segRunsAux] at hr
  | succ n ih =>
      intro s r h1 hr
      cases s with
      | nil => simp [segRunsAux] at hr
      | cons c0 rest =>
          rw [segRunsAux] at hr
          rcases List.mem_cons.mp hr with rfl | hr2
          · intro c hc
            rcases List.mem_cons.mp hc with rfl | hc2
            · exact List.mem_cons_self _ _
            · exact List.mem_cons_of_mem _ (List.Sublist.mem hc2 (List.takeWhile_sublist _))
          · intro c hc
            have hlen : (rest.dropWhile (fun d => wordElem d == wordElem c0)).length ≤ n := by
              have hdw := (List.dropWhile_sublist (p := fun d => wordElem d == wordElem c0)
                (l := rest)).length_le
              simp only [List.length_cons] at h1
              omega
            have hin := ih _ r hlen hr2 c hc
            exact List.mem_cons_of_mem _ (List.Sublist.mem hin (List.dropWhile_sublist _))

theorem segRuns_mem (s r : Str) (hr : r ∈ segRuns s) : ∀ c ∈ r, c ∈ s :=
  segRunsAux_mem s.length s r (le_refl _) hr

theorem slugify_ne_nil (s : Str) (opts : SlugifyOptions) : slugify s opts ≠ [] := by
  simp only [slugify]
  split
  · simp
  · assumption

theorem slugify_default_chars (s : Str) :
    ∀ c ∈ slugify s defaultOptions,
      c = '-' ∨ ∃ d ∈ s, c = toLowerChar d ∧ NON_WORD c = false := by
  intro c hc
  simp only [slugify] at hc
  split at hc
  · left
    simpa using hc
  · have hpipe : slugifyPipeline s defaultOptions = slugifyWithRe false [] [] NON_WORD s := rfl
    rw [hpipe] at hc
    simp only [slugifyWithRe] at hc
    have h1 := mem_collapse c _ (mem_trimEnds c _ hc)
    have h2 := List.mem_filter.mp h1
    obtain ⟨hmem, hkeep⟩ := h2
    have hnw : NON_WORD c = false := by simpa using hkeep
    rcases mem_joinSep _ c _ hmem with hsep | ⟨t, ht, hct⟩
    · simp at hsep
    · obtain ⟨r, hr, hrt⟩ := List.mem_map.mp ht
      have hcw : convertWord false [] [] r = r := rfl
      rw [hcw] at hrt
      rw [← hrt] at hct
      obtain ⟨r0, hr0, hr0r⟩ := List.mem_map.mp hr
      by_cases hw : isWordRun r0 = true
      · rw [if_pos hw] at hr0r
        rw [← hr0r] at hct
        have hcu := segRuns_mem _ r0 hr0 c hct
        obtain ⟨d, hd, hcd⟩ := List.mem_map.mp hcu
        right
        exact ⟨d, mem_trimStr s d hd, hcd.symm, hnw⟩
      · rw [if_neg hw] at hr0r
        rw [← hr0r] at hct
        left
        simpa using hct

theorem ascii_slug_char (d : Char) (hd : d.toNat < 128) (c : Char) (hc : c = toLowerChar d)
    (hw : NON_WORD c = false) : isSlugOutChar c = true := by
  have hkeep : (unicodeLetter c || unicodeMark c || unicodeNumber c || c == '-') = true := by
    unfold NON_WORD at hw
    cases hx : (unicodeLetter c || unicodeMark c || unicodeNumber c || c == '-') with
    | true => rfl
    | false => rw [hx] at hw; simp at hw
  unfold toLowerChar at hc
  split at hc
  · rename_i hrange
    subst hc
    have hn : (Char.ofNat (d.toNat + 32)).toNat = d.toNat + 32 :=
      toNat_ofNat_valid _ (by omega)
    unfold isSlugOutChar
    simp only [hn]
    have : 97 ≤ d.toNat + 32 ∧ d.toNat + 32 ≤ 122 := by omega
    simp [this.1, this.2]
  · split at hc
    · rename_i h1 h2
      omega
    · subst hc
      unfold isSlugOutChar
      unfold unicodeLetter unicodeMark unicodeNumber at hkeep
      rename_i h1 h2
      rcases Bool.or_eq_true_iff.mp hkeep with h3 | h3
      · rcases Bool.or_eq_true_iff.mp h3 with h4 | h4
        · rcases Bool.or_eq_true_iff.mp h4 with h5 | h5
          · -- letter
            simp only [Bool.or_eq_true, decide_eq_true_eq, Bool.and_eq_true,
              bne_iff_ne] at h5
            rcases h5 with ((h6 | h6) | h6) | h6
            · exact absurd h6 h1
            · simp [h6.1, h6.2]
            · omega
            · omega
          · -- mark: impossible, d < 128
            simp only [Bool.and_eq_true, decide_eq_true_eq] at h5
            omega
        · -- number
          simp only [Bool.and_eq_true, decide_eq_true_eq] at h4
          simp [h4.1, h4.2]
      · -- hyphen
        simp [h3]

set_option maxRecDepth 8192 in
/-- C1 counterexample: under the default configuration, the Greek input "α"
slugifies to itself, so the output of slugify does not match ^[a-z0-9-]+$ for
every input and configuration. -/
theorem slugify_charset_counterexample :
    slugify ['α'] defaultOptions = ['α'] ∧
      (slugify ['α'] defaultOptions).all isSlugOutChar = false := by
  constructor <;> decide

/-- C1 (amended): for every input consisting only of ASCII characters — in
particular the string enumerating all 128 ASCII code points — the slug
produced under the default configuration is non-empty and matches
^[a-z0-9-]+$. -/
theorem slugify_ascii_charset (s : Str) (h : ∀ c ∈ s, c.toNat < 128) :
    slugify s defaultOptions ≠ [] ∧
      ∀ c ∈ slugify s defaultOptions, isSlugOutChar c = true := by
  refine ⟨slugify_ne_nil s defaultOptions, ?_⟩
  intro c hc
  rcases slugify_default_chars s c hc with rfl | ⟨d, hd, hcd, hnw⟩
  · decide
  · exact ascii_slug_char d (h d hd) c hcd hnw

set_option maxRecDepth 8192 in
/-- C1 witness: the amended theorem applied to the string enumerating all 128
ASCII code points. -/
theorem slugify_ascii_charset_witness :
    slugify allAscii defaultOptions ≠ [] ∧
      ∀ c ∈ slugify allAscii defaultOptions, isSlugOutChar c = true :=
  slugify_ascii_charset allAscii (by decide)

theorem toLowerChar_idem (c : Char) : toLowerChar (toLowerChar c) = toLowerChar c := by
  by_cases h1 : 65 ≤ c.toNat ∧ c.toNat ≤ 90
  · have he : toLowerChar c = Char.ofNat (c.toNat + 32) := by
      unfold toLowerChar
      rw [if_pos h1]
    rw [he]
    have hn := toNat_ofNat_valid (c.toNat + 32) (by omega)
    unfold toLowerChar
    rw [hn]
    rw [if_neg (by omega), if_neg (by omega)]
  · by_cases h2 : 0x391 ≤ c.toNat ∧ c.toNat ≤ 0x3A9
    · have he : toLowerChar c = Char.ofNat (c.toNat + 32) := by
        unfold toLowerChar
        rw [if_neg h1, if_pos h2]
      rw [he]
      have hn := toNat_ofNat_valid (c.toNat + 32) (by omega)
      unfold toLowerChar
      rw [hn]
      rw [if_neg (by omega), if_neg (by omega)]
    · have he : toLowerChar c = c := by
        unfold toLowerChar
        rw [if_neg h1, if_neg h2]
      rw [he, he]

theorem NON_WORD_false_iff (c : Char) :
    NON_WORD c = false ↔ (wordElem c || c == '-') = true := by
  unfold NON_WORD wordElem
  cases hx : (unicodeLetter c || unicodeMark c || unicodeNumber c || c == '-') <;>
    simp [hx]

theorem keep_not_space (c : Char) (h : NON_WORD c = false) : isSpaceChar c = false := by
  have hk := (NON_WORD_false_iff c).mp h
  rw [Bool.eq_false_iff]
  intro hs
  unfold isSpaceChar at hs
  unfold wordElem unicodeLetter unicodeMark unicodeNumber at hk
  rcases Bool.or_eq_true_iff.mp hk with hw | he
  · simp only [Bool.or_eq_true, Bool.and_eq_true, decide_eq_true_eq, bne_iff_ne] at hw hs
    omega
  · have : c = '-' := eq_of_beq he
    subst this
    simp at hs

theorem dropWhile_all_false (p : Char → Bool) (l : Str) (h : ∀ c ∈ l, p c = false) :
    l.dropWhile p = l := by
  cases l with
  | nil => rfl
  | cons c r =>
      rw [List.dropWhile_cons, if_neg]
      simp [h c (by simp)]

theorem trim_eq_self (s : Str) (h : ∀ c ∈ s, isSpaceChar c = false) : trimStr s = s := by
  unfold trimStr
  rw [dropWhile_all_false _ _ h]
  rw [dropWhile_all_false _ _ (fun c hc => h c (List.mem_reverse.mp hc))]
  exact List.reverse_reverse s

theorem map_eq_self_of {α : Type} (f : α → α) (l : List α) (h : ∀ x ∈ l, f x = x) :
    l.map f = l := by
  induction l with
  | nil => rfl
  | cons c r ih =>
      rw [List.map_cons, h c (by simp), ih (fun d hd => h d (by simp [hd]))]

theorem collapse_eq_self : ∀ (t : Str), noDoubleHyphen t = true → collapse t = t := by
  intro t h
  match t with
  | [] => rfl
  | [c] => rfl
  | a :: b :: rest =>
      have hpair := ((noDouble_cons_cons _ _ _).mp h).1
      have ih := collapse_eq_self (b :: rest) (noDouble_cons _ _ h)
      have hcond : ¬((a == '-' && b == '-') = true) := by
        simp only [Bool.and_eq_true, beq_iff_eq]
        exact fun hx => hpair ⟨hx.1, hx.2⟩
      rw [collapse, if_neg hcond, ih]

theorem trimEnds_eq_self (t : Str) (h1 : t.head? ≠ some '-') (h2 : t.getLast? ≠ some '-') :
    trimEnds t = t := by
  simp only [trimEnds]
  rw [if_neg h1, if_neg h2]

theorem noDouble_append_left : ∀ (l1 l2 : Str), noDoubleHyphen (l1 ++ l2) = true →
    noDoubleHyphen l2 = true := by
  intro l1 l2 h
  induction l1 with
  | nil => exact h
  | cons a l1' ih =>
      rw [List.cons_append] at h
      exact ih (noDouble_cons _ _ h)

theorem noDouble_append_right : ∀ (l1 l2 : Str), noDoubleHyphen (l1 ++ l2) = true →
    noDoubleHyphen l1 = true := by
  intro l1
  match l1 with
  | [] => intro l2 h; rfl
  | [a] => intro l2 h; rfl
  | a :: b :: r =>
      intro l2 h
      rw [List.cons_append, List.cons_append] at h
      have hpair := ((noDouble_cons_cons _ _ _).mp h).1
      have ih := noDouble_append_right (b :: r) l2 (by
        rw [List.cons_append]
        exact noDouble_cons _ _ h)
      rw [noDouble_cons_cons]
      exact ⟨hpair, ih⟩

theorem hyphen_run_short (r : Str) (hall : ∀ c ∈ r, c = '-')
    (hnd : noDoubleHyphen r = true) (hne : r ≠ []) : r = ['-'] := by
  match r with
  | [] => exact absurd rfl hne
  | [a] => rw [hall a (by simp)]
  | a :: b :: rest =>
      have hpair := ((noDouble_cons_cons _ _ _).mp hnd).1
      exact absurd ⟨hall a (by simp), hall b (by simp)⟩ hpair

theorem segRunsAux_flatten : ∀ (fuel : Nat) (s : Str), s.length ≤ fuel →
    (segRunsAux fuel s).flatten = s := by
  intro fuel
  induction fuel with
  | zero =>
      intro s h
      have hs : s = [] := List.eq_nil_of_length_eq_zero (Nat.le_zero.mp h)
      subst hs
      rfl
  | succ n ih =>
      intro s h
      cases s with
      | nil => rfl
      | cons c rest =>
          rw [segRunsAux, List.flatten_cons]
          have hlen : (rest.dropWhile (fun d => wordElem d == wordElem c)).length ≤ n := by
            have hdw := (List.dropWhile_sublist (p := fun d => wordElem d == wordElem c)
              (l := rest)).length_le
            simp only [List.length_cons] at h
            omega
          rw [ih _ hlen]
          rw [List.cons_append, List.takeWhile_append_dropWhile]

theorem segRuns_flatten (s : Str) : (segRuns s).flatten = s :=
  segRunsAux_flatten s.length s (le_refl _)

theorem segRunsAux_ne_nil : ∀ (fuel : Nat) (s r : Str), s.length ≤ fuel →
    r ∈ segRunsAux fuel s → r ≠ [] := by
  intro fuel
  induction fuel with
  | zero =>
      intro s r h hr
      have hs : s = [] := List.eq_nil_of_length_eq_zero (Nat.le_zero.mp h)
      subst hs
      simp [segRunsAux] at hr
  | succ n ih =>
      intro s r h hr
      cases s with
      | nil => simp [segRunsAux] at hr
      | cons c rest =>
          rw [segRunsAux] at hr
          rcases List.mem_cons.mp hr with rfl | hr2
          · simp
          · have hlen : (rest.dropWhile (fun d => wordElem d == wordElem c)).length ≤ n := by
              have hdw := (List.dropWhile_sublist (p := fun d => wordElem d == wordElem c)
                (l := rest)).length_le
              simp only [List.length_cons] at h
              omega
            exact ih _ r hlen hr2

theorem segRunsAux_const : ∀ (fuel : Nat) (s r : Str), s.length ≤ fuel →
    r ∈ segRunsAux fuel s → ∀ c ∈ r, wordElem c = isWordRun r := by
  intro fuel
  induction fuel with
  | zero =>
      intro s r h hr
      have hs : s = [] := List.eq_nil_of_length_eq_zero (Nat.le_zero.mp h)
      subst hs
      simp [segRunsAux] at hr
  | succ n ih =>
      intro s r h hr
      cases s with
      | nil => simp [segRunsAux] at hr
      | cons c0 rest =>
          rw [segRunsAux] at hr
          rcases List.mem_cons.mp hr with rfl | hr2
          · intro c hc
            rcases List.mem_cons.mp hc with rfl | hc2
            · rfl
            · have := List.mem_takeWhile_imp hc2
              simpa [isWordRun] using this
          · have hlen : (rest.dropWhile (fun d => wordElem d == wordElem c0)).length ≤ n := by
              have hdw := (List.dropWhile_sublist (p := fun d => wordElem d == wordElem c0)
                (l := rest)).length_le
              simp only [List.length_cons] at h
              omega
            exact ih _ r hlen hr2

theorem segRunsAux_infix : ∀ (fuel : Nat) (s r : Str), s.length ≤ fuel →
    r ∈ segRunsAux fuel s → ∃ p q, s = p ++ (r ++ q) := by
  intro fuel
  induction fuel with
  | zero =>
      intro s r h hr
      have hs : s = [] := List.eq_nil_of_length_eq_zero (Nat.le_zero.mp h)
      subst hs
      simp [segRunsAux] at hr
  | succ n ih =>
      intro s r h hr
      cases s with
      | nil => simp [segRunsAux] at hr
      | cons c0 rest =>
          rw [segRunsAux] at hr
          rcases List.mem_cons.mp hr with rfl | hr2
          · refine ⟨[], rest.dropWhile (fun d => wordElem d == wordElem c0), ?_⟩
            rw [List.nil_append, List.cons_append, List.takeWhile_append_dropWhile]
          · have hlen : (rest.dropWhile (fun d => wordElem d == wordElem c0)).length ≤ n := by
              have hdw := (List.dropWhile_sublist (p := fun d => wordElem d == wordElem c0)
                (l := rest)).length_le
              simp only [List.length_cons] at h
              omega
            obtain ⟨p, q, hpq⟩ := ih _ r hlen hr2
            refine ⟨(c0 :: rest.takeWhile (fun d => wordElem d == wordElem c0)) ++ p, q, ?_⟩
            rw [List.append_assoc, ← hpq]
            rw [List.cons_append, List.takeWhile_append_dropWhile]

theorem segRuns_noDouble (t r : Str) (hnd : noDoubleHyphen t = true)
    (hr : r ∈ segRuns t) : noDoubleHyphen r = true := by
  obtain ⟨p, q, hpq⟩ := segRunsAux_infix t.length t r (le_refl _) hr
  rw [hpq] at hnd
  exact noDouble_append_right _ _ (noDouble_append_left _ _ hnd)

theorem tokens_eq_segRuns (t : Str) (H1 : ∀ c ∈ t, NON_WORD c = false)
    (H3 : noDoubleHyphen t = true) : tokens t = segRuns t := by
  unfold tokens
  apply map_eq_self_of
  intro r hr
  by_cases hw : isWordRun r = true
  · rw [if_pos hw]
  · rw [if_neg hw]
    have hne : r ≠ [] := segRunsAux_ne_nil t.length t r (le_refl _) hr
    have hall : ∀ c ∈ r, c = '-' := by
      intro c hc
      have hconst := segRunsAux_const t.length t r (le_refl _) hr c hc
      have hwe : wordElem c = false := by
        rw [hconst]
        exact Bool.not_eq_true _ ▸ (by simpa using hw)
      have hkeep := (NON_WORD_false_iff c).mp (H1 c (segRuns_mem t r hr c hc))
      rcases Bool.or_eq_true_iff.mp hkeep with h1 | h1
      · rw [hwe] at h1
        exact absurd h1 (by simp)
      · exact eq_of_beq h1
    exact (hyphen_run_short r hall (segRuns_noDouble t r H3 hr) hne).symm

theorem joinSep_nil : ∀ (l : List Str), joinSep [] l = l.flatten := by
  intro l
  match l with
  | [] => rfl
  | [x] => simp [joinSep]
  | x :: y :: ys =>
      rw [joinSep, List.flatten_cons, joinSep_nil (y :: ys)]
      simp

theorem map_convert_false (pat : List Str) (m : CharMap) (l : List Str) :
    l.map (fun w => convertWord false pat m w) = l :=
  map_eq_self_of _ l (fun _ _ => rfl)

theorem slugify_default_fixed (t : Str)
    (H1 : ∀ c ∈ t, NON_WORD c = false)
    (H2 : ∀ c ∈ t, toLowerChar c = c)
    (H3 : noDoubleHyphen t = true)
    (H4 : t ≠ [])
    (H5 : t.head? ≠ some '-' ∧ t.getLast? ≠ some '-') :
    slugify t defaultOptions = t := by
  have htrim : trimStr t = t := trim_eq_self t (fun c hc => keep_not_space c (H1 c hc))
  have hlower : toLowerStr t = t := map_eq_self_of toLowerChar t H2
  have hfilter : t.filter (fun c => !(NON_WORD c)) = t := by
    apply List.filter_eq_self.mpr
    intro c hc
    rw [H1 c hc]
    rfl
  have hpipe : slugifyPipeline t defaultOptions = t := by
    have hshape : slugifyPipeline t defaultOptions =
        trimEnds (collapse (List.filter (fun c => !(NON_WORD c))
          (joinSep [] ((tokens (toLowerStr (trimStr t))).map
            (fun w => convertWord false [] [] w))))) := rfl
    rw [hshape, htrim, hlower, map_convert_false, tokens_eq_segRuns t H1 H3,
      joinSep_nil, segRuns_flatten, hfilter, collapse_eq_self t H3,
      trimEnds_eq_self t H5.1 H5.2]
  simp only [slugify, hpipe]
  rw [if_neg H4]

set_option maxRecDepth 8192 in
/-- C3: slugify is idempotent under the default options: applying it to its
own output returns that output unchanged. -/
theorem slugify_idempotent (s : Str) :
    slugify (slugify s defaultOptions) defaultOptions = slugify s defaultOptions := by
  have hchars := slugify_default_chars s
  have H1 : ∀ c ∈ slugify s defaultOptions, NON_WORD c = false := by
    intro c hc
    rcases hchars c hc with rfl | ⟨d, hd, hcd, hnw⟩
    · decide
    · exact hnw
  have H2 : ∀ c ∈ slugify s defaultOptions, toLowerChar c = c := by
    intro c hc
    rcases hchars c hc with rfl | ⟨d, hd, hcd, hnw⟩
    · decide
    · rw [hcd]
      exact toLowerChar_idem d
  have H3 := slugify_noDouble s defaultOptions
  have H4 := slugify_ne_nil s defaultOptions
  rcases slugify_edges s defaultOptions with h5 | h5
  · rw [h5]
    decide
  · exact slugify_default_fixed _ H1 H2 H3 H4 h5

theorem strLt_irrefl : ∀ (a : Str), strLt a a = false := by
  intro a
  induction a with
  | nil => rfl
  | cons x as ih => simp [strLt, ih]

theorem strLt_trans : ∀ (a b c : Str), strLt a b = true → strLt b c = true →
    strLt a c = true := by
  intro a
  induction a with
  | nil =>
      intro b c hab hbc
      cases b with
      | nil => simp [strLt] at hab
      | cons y bs =>
          cases c with
          | nil => simp [strLt] at hbc
          | cons z cs => rfl
  | cons x as ih =>
      intro b c hab hbc
      cases b with
      | nil => simp [strLt] at hab
      | cons y bs =>
          cases c with
          | nil => simp [strLt] at hbc
          | cons z cs =>
              simp only [strLt, Bool.or_eq_true, Bool.and_eq_true, decide_eq_true_eq,
                beq_iff_eq] at hab hbc ⊢
              rcases hab with h1 | ⟨h1, h2⟩
              · rcases hbc with h3 | ⟨h3, h4⟩
                · exact Or.inl (by omega)
                · subst h3
                  exact Or.inl h1
              · rcases hbc with h3 | ⟨h3, h4⟩
                · subst h1
                  exact Or.inl h3
                · subst h1
                  subst h3
                  exact Or.inr ⟨rfl, ih bs cs h2 h4⟩

theorem strLt_le (a b : Str) (h : strLt a b = true) : strLe a b = true := by
  unfold strLe
  rw [h]
  rfl

theorem chain'_pairwise_of_trans {α : Type} {R : α → α → Prop}
    (htr : ∀ a b c, R a b → R b c → R a c) :
    ∀ (l : List α), List.Chain' R l → List.Pairwise R l := by
  intro l h
  induction l with
  | nil => exact List.Pairwise.nil
  | cons a l ih =>
      cases l with
      | nil => simp
      | cons b0 l' =>
          have hhead : R a b0 := (List.chain'_cons.mp h).1
          have htail : List.Chain' R (b0 :: l') := (List.chain'_cons.mp h).2
          have hp := ih htail
          rw [List.pairwise_cons]
          refine ⟨?_, hp⟩
          intro b hb
          rcases List.mem_cons.mp hb with rfl | hb'
          · exact hhead
          · exact htr a b0 b hhead ((List.pairwise_cons.mp hp).1 b hb')

theorem splitComma_ne_nil : ∀ (s : Str), splitComma s ≠ [] := by
  intro s
  cases s with
  | nil => simp [splitComma]
  | cons c rest =>
      rw [splitComma]
      rcases hsc : splitComma rest with _ | ⟨h, t⟩
      · simp
      · dsimp only
        by_cases hc : c = ',' <;> simp [hc]

theorem joinSep_cons_head (sep : Str) (c : Char) (h : Str) (tl : List Str) :
    joinSep sep ((c :: h) :: tl) = c :: joinSep sep (h :: tl) := by
  cases tl <;> simp [joinSep]

theorem joinSep_splitComma : ∀ (s : Str), joinSep [','] (splitComma s) = s := by
  intro s
  induction s with
  | nil => rfl
  | cons c rest ih =>
      rw [splitComma]
      rcases hsc : splitComma rest with _ | ⟨h, tl⟩
      · exact absurd hsc (splitComma_ne_nil rest)
      · rw [hsc] at ih
        dsimp only
        by_cases hc : c = ','
        · subst hc
          rw [if_pos rfl]
          rw [show joinSep [','] ([] :: h :: tl) = [] ++ [','] ++ joinSep [','] (h :: tl)
            from rfl]
          rw [ih]
          rfl
        · rw [if_neg hc, joinSep_cons_head, ih]

theorem insSort_sorted_fix {α : Type} (le : α → α → Bool) :
    ∀ (l : List α), List.Chain' (fun a b => le a b = true) l → insSortBy le l = l := by
  intro l h
  induction l with
  | nil => rfl
  | cons x xs ih =>
      have hstep : insSortBy le (x :: xs) = insertSorted le x (insSortBy le xs) := rfl
      rw [hstep, ih h.tail]
      cases xs with
      | nil => rfl
      | cons y ys =>
          have hxy : le x y = true := (List.chain'_cons.mp h).1
          rw [insertSorted, if_pos hxy]

theorem dedupFirstAux_id : ∀ (l : List Str) (seen : List Str), l.Nodup →
    (∀ x ∈ l, x ∉ seen) → dedupFirstAux seen l = l := by
  intro l
  induction l with
  | nil => intro seen _ _; rfl
  | cons x xs ih =>
      intro seen hnd hseen
      rw [dedupFirstAux, if_neg (hseen x (by simp))]
      rw [ih (x :: seen) (List.Nodup.of_cons hnd) ?fresh]
      case fresh =>
        intro y hy
        intro hmem
        rcases List.mem_cons.mp hmem with rfl | hmem2
        · exact (List.nodup_cons.mp hnd).1 hy
        · exact hseen y (by simp [hy]) hmem2

theorem mapSet_fresh (a : CharMap) (k v : Str) (hk : List.lookup k a = none) :
    mapSet a k v = a ++ [(k, v)] := by
  unfold mapSet
  rw [hk]
  rfl

theorem lookup_block_none (k r : Str) (ys : List Str) (hk : k ∉ ys) :
    List.lookup k (ys.map (fun y => (y, r))) = none := by
  induction ys with
  | nil => rfl
  | cons y ys' ih =>
      rw [List.map_cons, lookup_cons, if_neg ?hne]
      case hne =>
        simp only [beq_iff_eq]
        intro he
        exact hk (by simp [he])
      exact ih (fun h => hk (List.mem_cons_of_mem _ h))

theorem expand_inner (r : Str) : ∀ (ys : List Str) (a : CharMap),
    (∀ y ∈ ys, List.lookup y a = none) → ys.Nodup →
    ys.foldl (fun a y => mapSet a y r) a = a ++ ys.map (fun y => (y, r)) := by
  intro ys
  induction ys with
  | nil =>
      intro a _ _
      simp
  | cons y ys' ih =>
      intro a hfresh hnd
      rw [List.foldl_cons, mapSet_fresh a y r (hfresh y (by simp))]
      rw [ih (a ++ [(y, r)]) ?fresh (List.Nodup.of_cons hnd)]
      · simp
      case fresh =>
        intro z hz
        have hzy : (z == y) = false := by
          simp only [beq_eq_false_iff_ne, ne_eq]
          intro he
          subst he
          exact (List.nodup_cons.mp hnd).1 hz
        rw [List.lookup_append, hfresh z (by simp [hz]), lookup_cons, if_neg (by simp [hzy])]
        rfl

theorem expand_go : ∀ (t : List (Str × Str)) (a : CharMap),
    (∀ p ∈ t, ∀ y ∈ splitComma p.2, List.lookup y a = none) →
    (t.flatMap (fun p => splitComma p.2)).Nodup →
    t.foldl (fun acc p => (splitComma p.2).foldl (fun a y => mapSet a y p.1) acc) a =
      a ++ t.flatMap (fun p => (splitComma p.2).map (fun y => (y, p.1))) := by
  intro t
  induction t with
  | nil =>
      intro a _ _
      simp
  | cons p t' ih =>
      intro a hfresh hnd
      have hnd' := hnd
      rw [List.flatMap_cons] at hnd'
      obtain ⟨hndblock, hndrest, hdisj⟩ := List.nodup_append.mp hnd'
      rw [List.foldl_cons]
      rw [expand_inner p.1 (splitComma p.2) a (hfresh p (by simp)) hndblock]
      rw [ih (a ++ (splitComma p.2).map (fun y => (y, p.1))) ?fresh2 hndrest]
      · rw [List.flatMap_cons, List.append_assoc]
      case fresh2 =>
        intro q hq z hz
        rw [List.lookup_append, hfresh q (by simp [hq]) z hz, lookup_block_none]
        · rfl
        · intro hmem
          exact hdisj hmem (List.mem_flatMap.mpr ⟨q, hq, hz⟩)

theorem expand_eq_entries (t : List (Str × Str))
    (hnd : (t.flatMap (fun p => splitComma p.2)).Nodup) :
    expandTable t = t.flatMap (fun p => (splitComma p.2).map (fun y => (y, p.1))) := by
  unfold expandTable
  rw [expand_go t [] (fun p _ y _ => rfl) hnd]
  rfl

theorem addToGroup_new : ∀ (acc : List (Str × List Str)) (r y : Str),
    (∀ g ∈ acc, g.1 ≠ r) → addToGroup acc r y = acc ++ [(r, [y])] := by
  intro acc
  induction acc with
  | nil =>
      intro r y _
      rfl
  | cons g rest ih =>
      intro r y h
      obtain ⟨g1, g2⟩ := g
      rw [addToGroup, if_neg (h (g1, g2) (by simp))]
      rw [ih r y (fun g' hg' => h g' (by simp [hg']))]
      rfl

theorem addToGroup_hit : ∀ (acc : List (Str × List Str)) (r : Str) (ks : List Str) (y : Str),
    (∀ g ∈ acc, g.1 ≠ r) →
    addToGroup (acc ++ [(r, ks)]) r y = acc ++ [(r, ks ++ [y])] := by
  intro acc
  induction acc with
  | nil =>
      intro r ks y _
      rw [List.nil_append, List.nil_append]
      rw [addToGroup, if_pos rfl]
  | cons g rest ih =>
      intro r ks y h
      obtain ⟨g1, g2⟩ := g
      rw [List.cons_append, addToGroup, if_neg (h (g1, g2) (by simp))]
      rw [ih r ks y (fun g' hg' => h g' (by simp [hg']))]
      rfl

theorem group_block (r : Str) : ∀ (ys : List Str) (acc : List (Str × List Str)) (ks : List Str),
    (∀ g ∈ acc, g.1 ≠ r) →
    (ys.map (fun y => (y, r))).foldl (fun ac q => addToGroup ac q.2 q.1) (acc ++ [(r, ks)]) =
      acc ++ [(r, ks ++ ys)] := by
  intro ys
  induction ys with
  | nil =>
      intro acc ks _
      simp
  | cons y ys' ih =>
      intro acc ks h
      rw [List.map_cons, List.foldl_cons]
      dsimp only
      rw [addToGroup_hit acc r ks y h]
      rw [ih acc (ks ++ [y]) h]
      simp

theorem group_all : ∀ (t : List (Str × Str)) (acc : List (Str × List Str)),
    (∀ p ∈ t, ∀ g ∈ acc, g.1 ≠ p.1) → (t.map Prod.fst).Nodup →
    (t.flatMap (fun p => (splitComma p.2).map (fun y => (y, p.1)))).foldl
        (fun ac q => addToGroup ac q.2 q.1) acc =
      acc ++ t.map (fun p => (p.1, splitComma p.2)) := by
  intro t
  induction t with
  | nil =>
      intro acc _ _
      simp
  | cons p t' ih =>
      intro acc hfresh hnd
      rw [List.map_cons] at hnd
      obtain ⟨hp1, hndrest⟩ := List.nodup_cons.mp hnd
      rw [List.flatMap_cons, List.foldl_append]
      rcases hsc : splitComma p.2 with _ | ⟨y0, ys'⟩
      · exact absurd hsc (splitComma_ne_nil _)
      rw [List.map_cons, List.foldl_cons]
      dsimp only
      rw [addToGroup_new acc p.1 y0 (fun g hg => hfresh p (by simp) g hg)]
      rw [group_block p.1 ys' acc [y0] (fun g hg => hfresh p (by simp) g hg)]
      rw [ih (acc ++ [(p.1, [y0] ++ ys')]) ?fresh ?nd]
      · rw [List.map_cons, hsc, List.append_assoc]
        rfl
      case fresh =>
        intro q hq g hg
        rcases List.mem_append.mp hg with hg1 | hg2
        · exact hfresh q (by simp [hq]) g hg1
        · have hge : g = (p.1, [y0] ++ ys') := by simpa using hg2
          rw [hge]
          intro he
          exact hp1 (he ▸ List.mem_map.mpr ⟨q, hq, rfl⟩)
      case nd => exact hndrest

theorem group_entries (t : List (Str × Str)) (hnd : (t.map Prod.fst).Nodup) :
    groupByValue (t.flatMap (fun p => (splitComma p.2).map (fun y => (y, p.1)))) =
      t.map (fun p => (p.1, splitComma p.2)) := by
  unfold groupByValue
  rw [group_all t [] (fun p _ g hg => absurd hg (List.not_mem_nil g)) hnd]
  rfl

/-- C5: round-trip of the compiled table: expanding a well-formed
SerializedTable (roots strictly sorted; each entry's comma-split sources
strictly sorted; sources globally distinct, i.e. partitioning) into a
RuntimeCharMap and re-deriving a SerializedTable from that map by grouping
sources by target, deduplicating and sorting, reproduces the original table
entry-for-entry, hence byte-for-byte. -/
theorem table_roundtrip (t : List (Str × Str))
    (hroots : List.Chain' (fun p q : Str × Str => strLt p.1 q.1 = true) t)
    (hmem : ∀ p ∈ t, List.Chain' (fun a b : Str => strLt a b = true) (splitComma p.2))
    (hnodup : (t.flatMap (fun p => splitComma p.2)).Nodup) :
    deriveTable (expandTable t) = t := by
  have htrans : ∀ p q g : Str × Str, strLt p.1 q.1 = true → strLt q.1 g.1 = true →
      strLt p.1 g.1 = true := fun p q g h1 h2 => strLt_trans _ _ _ h1 h2
  have hpw := chain'_pairwise_of_trans htrans t hroots
  have hrootsnd : (t.map Prod.fst).Nodup := by
    apply List.Pairwise.map Prod.fst ?imp hpw
    case imp =>
      intro a b hab he
      rw [he, strLt_irrefl] at hab
      exact absurd hab (by simp)
  rw [expand_eq_entries t hnodup]
  unfold deriveTable
  rw [group_entries t hrootsnd]
  have hsortfix : insSortBy (fun a b : Str × List Str => strLe a.1 b.1)
      (t.map (fun p => (p.1, splitComma p.2))) =
      t.map (fun p => (p.1, splitComma p.2)) := by
    apply insSort_sorted_fix
    rw [List.chain'_map]
    exact hroots.imp (fun a b hab => strLt_le _ _ hab)
  rw [hsortfix, List.map_map]
  apply map_eq_self_of
  intro p hp
  have hm := hmem p hp
  have hnd : (splitComma p.2).Nodup := by
    have hpw2 := chain'_pairwise_of_trans
      (fun a b c hab hbc => strLt_trans a b c hab hbc) _ hm
    apply hpw2.imp
    intro a b hab he
    rw [he, strLt_irrefl] at hab
    exact absurd hab (by simp)
  show (p.1, joinSep [','] (dedupFirst (insSortBy strLe (splitComma p.2)))) = p
  rw [insSort_sorted_fix strLe _ (hm.imp (fun a b h => strLt_le a b h))]
  rw [show dedupFirst (splitComma p.2) = splitComma p.2 from
    dedupFirstAux_id _ [] hnd (fun x _ => List.not_mem_nil x)]
  rw [joinSep_splitComma]

/-- C5 witness: a two-entry serialized table (roots "q" and "r", sources
"a,b" and "c") survives the expand/re-derive round trip unchanged. -/
theorem table_roundtrip_witness :
    deriveTable (expandTable [(['q'], ['a', ',', 'b']), (['r'], ['c'])]) =
      [(['q'], ['a', ',', 'b']), (['r'], ['c'])] :=
  table_roundtrip [(['q'], ['a', ',', 'b']), (['r'], ['c'])]
    (by
      rw [List.chain'_cons]
      refine ⟨by decide, ?_⟩
      simp)
    (by
      intro p hp
      rcases List.mem_cons.mp hp with rfl | hp2
      · show List.Chain' _ (splitComma ['a', ',', 'b'])
        rw [show splitComma ['a', ',', 'b'] = [['a'], ['b']] from rfl]
        rw [List.chain'_cons]
        refine ⟨by decide, ?_⟩
        simp
      · rcases List.mem_cons.mp hp2 with rfl | hp3
        · show List.Chain' _ (splitComma ['c'])
          rw [show splitComma ['c'] = [['c']] from rfl]
          simp
        · simp at hp3)
    (by decide)
